import Mathlib

/-!
Verification of the pdf-image-extractor repository (src/main.py, src/gui.py,
src/pdf-image-extractor.py) against its natural-language specification.

The Python code is shallowly embedded: strings are `List Char`, Python `set`
objects are duplicate-free `List Int` / `List Nat` values built by guarded
insertion, Python exceptions become `Option` (`none` = the call raised), and
the filesystem is a list of already-existing file names.  Host-library
behaviour (PyMuPDF opening documents, listing images, writing bytes) is
abstracted: a document is its page list of image xrefs plus an extension map,
and writes always succeed.  Only ASCII text is modelled (`int()` on non-ASCII
digits is out of scope).
-/

namespace PdfExtract

/-! ## Name sanitizer (src/main.py lines 22-25, src/gui.py lines 78-81)

`SAFE_CHARS = re.compile(r'[^A-Za-z0-9._@-]')`; `safe_name` replaces every
character outside the class with `-`. -/

/-- Membership in the regex character class `[A-Za-z0-9._@-]`,
by ASCII code (65-90 = A-Z, 97-122 = a-z, 48-57 = 0-9). -/
def isSafeChar (c : Char) : Bool :=
  decide ((65 ≤ c.toNat ∧ c.toNat ≤ 90) ∨ (97 ≤ c.toNat ∧ c.toNat ≤ 122) ∨
    (48 ≤ c.toNat ∧ c.toNat ≤ 57) ∨ c = '.' ∨ c = '_' ∨ c = '@' ∨ c = '-')

/-- `safe_name(s)`: substitute `-` for every character outside the safe class. -/
def safe_name (s : List Char) : List Char :=
  s.map (fun c => if isSafeChar c then c else '-')

/-! ## Python helpers: `str.strip`, `int()`, `str.split` -/

/-- ASCII whitespace stripped by Python `str.strip()` / accepted by `int()`. -/
def isPySpace (c : Char) : Bool :=
  c == ' ' || c == '\t' || c == '\n' || c == '\r' || c.toNat == 11 || c.toNat == 12

/-- Python `s.strip()` on ASCII whitespace. -/
def strip (s : List Char) : List Char :=
  (((s.dropWhile isPySpace).reverse).dropWhile isPySpace).reverse

def isDigitCh (c : Char) : Bool := 48 ≤ c.toNat && c.toNat ≤ 57

def digitVal (c : Char) : Nat := c.toNat - 48

/-- Digit run after the first digit: Python `int()` allows single underscores
between digits (`1_0` is 10), never doubled or trailing. -/
def digitsTail : List Char → Nat → Option Nat
  | [], acc => some acc
  | '_' :: c :: rest, acc =>
    if isDigitCh c then digitsTail rest (acc * 10 + digitVal c) else none
  | c :: rest, acc =>
    if isDigitCh c then digitsTail rest (acc * 10 + digitVal c) else none

/-- A nonempty digit sequence (underscore grouping allowed, not leading). -/
def digitsRun : List Char → Option Nat
  | [] => none
  | c :: rest => if isDigitCh c then digitsTail rest (digitVal c) else none

/-- Python `int(s)` on an ASCII string: optional surrounding whitespace,
optional sign, then digits; `none` models a raised `ValueError`. -/
def pyInt (s : List Char) : Option Int :=
  match strip s with
  | '+' :: rest => (digitsRun rest).map (fun n => (n : Int))
  | '-' :: rest => (digitsRun rest).map (fun n => -(n : Int))
  | t => (digitsRun t).map (fun n => (n : Int))

/-- Python `s.split(",")`: empty pieces are kept, `"".split(",") == [""]`. -/
def splitComma : List Char → List (List Char)
  | [] => [[]]
  | c :: rest =>
    match splitComma rest with
    | [] => if c == ',' then [[], []] else [[c]]
    | t :: ts => if c == ',' then [] :: t :: ts else (c :: t) :: ts

/-- Python `part.split("-", 1)` restricted to the case the code uses:
`some (a, b)` splits at the first `-`; `none` means `-` does not occur
(the code only splits after checking `"-" in part`). -/
def splitDash1 : List Char → Option (List Char × List Char)
  | [] => none
  | c :: rest =>
    if c == '-' then some ([], rest)
    else (splitDash1 rest).map (fun p => (c :: p.1, p.2))

/-! ## Page range parser (src/main.py 27-46, src/gui.py 83-102)

The Python `wanted` set of 1-based page numbers is represented as a
duplicate-free `List Int` built by `setInsert`/`setUpdate`; the final
`sorted([p - 1 for p in wanted])` is `List.insertionSort` of the shifted
list. -/

/-- `wanted.add(p)` on the set-as-duplicate-free-list representation. -/
def setInsert (p : Int) (acc : List Int) : List Int :=
  if p ∈ acc then acc else p :: acc

/-- `wanted.update(xs)`. -/
def setUpdate (acc : List Int) (xs : List Int) : List Int :=
  xs.foldl (fun a x => setInsert x a) acc

/-- Python `range(s, e + 1)` over ints: the list `s, s+1, …, e` (empty when
`e < s`). -/
def pyRange (s e : Int) : List Int :=
  (List.range (e + 1 - s).toNat).map (fun (i : Nat) => s + (i : Int))

/-- One token of the GUI parser (src/gui.py 88-101): strip, skip empty
tokens, ranges are `max(1, int(a))..min(max_page, int(b))` guarded by
`start <= end`, single pages kept only when `1 <= p <= max_page`.
`none` models a raised `ValueError` from `int()`. -/
def procTokGui (n : Nat) (acc : List Int) (part : List Char) : Option (List Int) :=
  if (strip part).isEmpty then some acc
  else
    match splitDash1 (strip part) with
    | some ab =>
      match pyInt ab.1, pyInt ab.2 with
      | some ia, some ib =>
        if max 1 ia ≤ min (n : Int) ib then
          some (setUpdate acc (pyRange (max 1 ia) (min (n : Int) ib)))
        else some acc
      | _, _ => none
    | none =>
      match pyInt (strip part) with
      | some p => if 1 ≤ p ∧ p ≤ (n : Int) then some (setInsert p acc) else some acc
      | none => none

/-- One token of the CLI parser (src/main.py 34-44, identical in
src/pdf-image-extractor.py): no empty-token skip and no explicit
`start <= end` guard (`range` is empty then anyway). -/
def procTokMain (n : Nat) (acc : List Int) (part : List Char) : Option (List Int) :=
  match splitDash1 (strip part) with
  | some ab =>
    match pyInt ab.1, pyInt ab.2 with
    | some ia, some ib =>
      some (setUpdate acc (pyRange (max 1 ia) (min (n : Int) ib)))
    | _, _ => none
  | none =>
    match pyInt (strip part) with
    | some p => if 1 ≤ p ∧ p ≤ (n : Int) then some (setInsert p acc) else some acc
    | none => none

/-- The `for part in pages.split(",")` loop, threading the `wanted` set;
a raised exception aborts the whole parse. -/
def foldToks (f : List Int → List Char → Option (List Int)) :
    List (List Char) → List Int → Option (List Int)
  | [], acc => some acc
  | t :: ts, acc => (f acc t).bind (foldToks f ts)

/-- `sorted([p - 1 for p in wanted])`. -/
def finishSort (wanted : List Int) : List Int :=
  List.insertionSort (· ≤ ·) (wanted.map (fun p => p - 1))

/-- `parse_page_range` as in src/gui.py 83-102.  `none` selector or empty
string returns all pages; result `none` models a raised `ValueError`. -/
def parse_page_range_gui (pages : Option (List Char)) (n : Nat) : Option (List Int) :=
  match pages with
  | none => some ((List.range n).map (fun (i : Nat) => (i : Int)))
  | some s =>
    if s.isEmpty then some ((List.range n).map (fun (i : Nat) => (i : Int)))
    else (foldToks (procTokGui n) (splitComma s) []).map finishSort

/-- `parse_page_range` as in src/main.py 27-46. -/
def parse_page_range_main (pages : Option (List Char)) (n : Nat) : Option (List Int) :=
  match pages with
  | none => some ((List.range n).map (fun (i : Nat) => (i : Int)))
  | some s =>
    if s.isEmpty then some ((List.range n).map (fun (i : Nat) => (i : Int)))
    else (foldToks (procTokMain n) (splitComma s) []).map finishSort

/-- Modelled from the spec (claim C8 refinement comparison, not from the
source): the spec's words "a range token has both bounds clamped into
`[1, pageCount]` before expansion", i.e. start and end are each clamped on
both sides, then expanded when start ≤ end.  Only the range branch differs
from `procTokGui`. -/
def procTokSpecClamp (n : Nat) (acc : List Int) (part : List Char) : Option (List Int) :=
  let q := strip part
  if q.isEmpty then some acc
  else
    match splitDash1 q with
    | some ab =>
      match pyInt ab.1, pyInt ab.2 with
      | some ia, some ib =>
        let s := max 1 (min (n : Int) ia)
        let e := max 1 (min (n : Int) ib)
        if s ≤ e then some (setUpdate acc (pyRange s e)) else some acc
      | _, _ => none
    | none =>
      match pyInt q with
      | some p => if 1 ≤ p ∧ p ≤ (n : Int) then some (setInsert p acc) else some acc
      | none => none

/-- Modelled from the spec: `parse` with the spec-worded clamping of C8. -/
def parse_page_range_specClamp (pages : Option (List Char)) (n : Nat) : Option (List Int) :=
  match pages with
  | none => some ((List.range n).map (fun (i : Nat) => (i : Int)))
  | some s =>
    if s.isEmpty then some ((List.range n).map (fun (i : Nat) => (i : Int)))
    else (foldToks (procTokSpecClamp n) (splitComma s) []).map finishSort

/-! ## Properties of the set representation and of `pyRange` -/

theorem mem_setInsert (p x : Int) (acc : List Int) :
    x ∈ setInsert p acc ↔ x = p ∨ x ∈ acc := by
  unfold setInsert
  split
  · constructor
    · exact fun h => Or.inr h
    · rintro (rfl | h)
      · assumption
      · assumption
  · simp [List.mem_cons]

theorem nodup_setInsert (p : Int) (acc : List Int) (h : acc.Nodup) :
    (setInsert p acc).Nodup := by
  unfold setInsert
  split
  · exact h
  · exact List.Nodup.cons (by assumption) h

theorem mem_setUpdate (acc xs : List Int) (x : Int) :
    x ∈ setUpdate acc xs ↔ x ∈ acc ∨ x ∈ xs := by
  induction xs generalizing acc with
  | nil => simp [setUpdate]
  | cons y ys ih =>
    simp only [setUpdate, List.foldl_cons] at *
    rw [ih (setInsert y acc), mem_setInsert]
    simp only [List.mem_cons]
    tauto

theorem nodup_setUpdate (acc xs : List Int) (h : acc.Nodup) :
    (setUpdate acc xs).Nodup := by
  induction xs generalizing acc with
  | nil => exact h
  | cons y ys ih =>
    simp only [setUpdate, List.foldl_cons]
    exact ih (setInsert y acc) (nodup_setInsert y acc h)

theorem mem_pyRange (s e x : Int) : x ∈ pyRange s e ↔ s ≤ x ∧ x ≤ e := by
  unfold pyRange
  rw [List.mem_map]
  constructor
  · rintro ⟨i, hi, rfl⟩
    have : i < (e + 1 - s).toNat := List.mem_range.mp hi
    omega
  · rintro ⟨h1, h2⟩
    exact ⟨(x - s).toNat, List.mem_range.mpr (by omega), by omega⟩

/-- Invariant maintained on the `wanted` set: duplicate-free and every
element is a 1-based page number within `[1, n]`. -/
def InvSet (n : Nat) (acc : List Int) : Prop :=
  acc.Nodup ∧ ∀ x ∈ acc, 1 ≤ x ∧ x ≤ (n : Int)

theorem procTokGui_inv (n : Nat) (acc : List Int) (part : List Char) (acc' : List Int)
    (h : procTokGui n acc part = some acc') (hi : InvSet n acc) : InvSet n acc' := by
  unfold procTokGui at h
  split at h
  · exact Option.some.inj h ▸ hi
  · split at h
    · split at h
      · split at h
        · cases Option.some.inj h
          refine ⟨nodup_setUpdate _ _ hi.1, fun x hx => ?_⟩
          rcases (mem_setUpdate _ _ x).mp hx with hx | hx
          · exact hi.2 x hx
          · have := (mem_pyRange _ _ x).mp hx
            omega
        · exact Option.some.inj h ▸ hi
      · exact absurd h (by simp)
    · split at h
      · split at h
        · cases Option.some.inj h
          refine ⟨nodup_setInsert _ _ hi.1, fun x hx => ?_⟩
          rcases (mem_setInsert _ x _).mp hx with rfl | hx
          · omega
          · exact hi.2 x hx
        · exact Option.some.inj h ▸ hi
      · exact absurd h (by simp)

theorem procTokMain_inv (n : Nat) (acc : List Int) (part : List Char) (acc' : List Int)
    (h : procTokMain n acc part = some acc') (hi : InvSet n acc) : InvSet n acc' := by
  unfold procTokMain at h
  split at h
  · split at h
    · cases Option.some.inj h
      refine ⟨nodup_setUpdate _ _ hi.1, fun x hx => ?_⟩
      rcases (mem_setUpdate _ _ x).mp hx with hx | hx
      · exact hi.2 x hx
      · have := (mem_pyRange _ _ x).mp hx
        omega
    · exact absurd h (by simp)
  · split at h
    · split at h
      · cases Option.some.inj h
        refine ⟨nodup_setInsert _ _ hi.1, fun x hx => ?_⟩
        rcases (mem_setInsert _ x _).mp hx with rfl | hx
        · omega
        · exact hi.2 x hx
      · exact Option.some.inj h ▸ hi
    · exact absurd h (by simp)

theorem foldToks_inv (n : Nat) (f : List Int → List Char → Option (List Int))
    (hf : ∀ acc t acc', f acc t = some acc' → InvSet n acc → InvSet n acc')
    (ts : List (List Char)) (acc w : List Int)
    (h : foldToks f ts acc = some w) (hi : InvSet n acc) : InvSet n w := by
  induction ts generalizing acc with
  | nil => exact Option.some.inj h ▸ hi
  | cons t ts ih =>
    simp only [foldToks] at h
    rcases ha : f acc t with _ | acc1
    · rw [ha] at h
      exact absurd h (by simp)
    · rw [ha] at h
      exact ih acc1 h (hf acc t acc1 ha hi)

theorem finishSort_sorted (w : List Int) (hw : w.Nodup) :
    (finishSort w).Sorted (· < ·) := by
  have hperm := List.perm_insertionSort (α := Int) (· ≤ ·) (w.map (fun p => p - 1))
  have hnd : (w.map (fun p => p - 1)).Nodup :=
    hw.map (fun a b hab => by omega)
  have hsorted : (finishSort w).Sorted (· ≤ ·) :=
    List.sorted_insertionSort (· ≤ ·) (w.map (fun p => p - 1))
  exact List.Sorted.lt_of_le hsorted (hperm.nodup_iff.mpr hnd)

theorem mem_finishSort (w : List Int) (x : Int) :
    x ∈ finishSort w ↔ ∃ p ∈ w, x = p - 1 := by
  unfold finishSort
  rw [(List.perm_insertionSort (· ≤ ·) (w.map (fun p => p - 1))).mem_iff]
  simp only [List.mem_map]
  constructor
  · rintro ⟨p, hp, rfl⟩
    exact ⟨p, hp, rfl⟩
  · rintro ⟨p, hp, rfl⟩
    exact ⟨p, hp, rfl⟩

theorem finishSort_ok (n : Nat) (w : List Int) (hi : InvSet n w) :
    (finishSort w).Sorted (· < ·) ∧ ∀ x ∈ finishSort w, 0 ≤ x ∧ x < (n : Int) := by
  refine ⟨finishSort_sorted w hi.1, fun x hx => ?_⟩
  rcases (mem_finishSort w x).mp hx with ⟨p, hp, rfl⟩
  have := hi.2 p hp
  omega

theorem range_branch_ok (n : Nat) :
    ((List.range n).map (fun (i : Nat) => (i : Int))).Sorted (· < ·) ∧
      ∀ x ∈ (List.range n).map (fun (i : Nat) => (i : Int)), 0 ≤ x ∧ x < (n : Int) := by
  constructor
  · show List.Pairwise (· < ·) ((List.range n).map (fun (i : Nat) => (i : Int)))
    rw [List.pairwise_map]
    exact (List.pairwise_lt_range n).imp (fun h => by exact_mod_cast h)
  · intro x hx
    rw [List.mem_map] at hx
    rcases hx with ⟨i, hi, rfl⟩
    have : i < n := List.mem_range.mp hi
    omega

example : parse_page_range_gui (some ("2-5,1".data)) 10 = some [0, 1, 2, 3, 4] := by decide
example : parse_page_range_main (some ("100".data)) 5 = some [] := by decide

/-- C2: for every selector accepted by either `parse_page_range` variant and
every page count, the returned zero-based indices are duplicate-free, sorted
strictly ascending, and all lie in `[0, n)`. -/
theorem spec_C2 (pages : Option (List Char)) (n : Nat) (res : List Int) :
    (parse_page_range_gui pages n = some res →
      res.Sorted (· < ·) ∧ ∀ x ∈ res, 0 ≤ x ∧ x < (n : Int)) ∧
    (parse_page_range_main pages n = some res →
      res.Sorted (· < ·) ∧ ∀ x ∈ res, 0 ≤ x ∧ x < (n : Int)) := by
  constructor
  · intro h
    rcases pages with _ | s
    · simp only [parse_page_range_gui] at h
      exact Option.some.inj h ▸ range_branch_ok n
    · simp only [parse_page_range_gui] at h
      split at h
      · exact Option.some.inj h ▸ range_branch_ok n
      · obtain ⟨w, hw, hres⟩ := Option.map_eq_some'.mp h
        subst hres
        exact finishSort_ok n w
          (foldToks_inv n _ (procTokGui_inv n) _ _ _ hw ⟨List.nodup_nil, by simp⟩)
  · intro h
    rcases pages with _ | s
    · simp only [parse_page_range_main] at h
      exact Option.some.inj h ▸ range_branch_ok n
    · simp only [parse_page_range_main] at h
      split at h
      · exact Option.some.inj h ▸ range_branch_ok n
      · obtain ⟨w, hw, hres⟩ := Option.map_eq_some'.mp h
        subst hres
        exact finishSort_ok n w
          (foldToks_inv n _ (procTokMain_inv n) _ _ _ hw ⟨List.nodup_nil, by simp⟩)

/-- C2 witness: `parse("2-5,1", 10)` succeeds with `[0, 1, 2, 3, 4]`, which
the theorem certifies sorted, duplicate-free and within `[0, 10)`. -/
theorem spec_C2_witness :
    parse_page_range_gui (some ("2-5,1".data)) 10 = some [0, 1, 2, 3, 4] ∧
      (([0, 1, 2, 3, 4] : List Int).Sorted (· < ·) ∧
        ∀ x ∈ ([0, 1, 2, 3, 4] : List Int), 0 ≤ x ∧ x < ((10 : Nat) : Int)) :=
  ⟨by decide, (spec_C2 (some ("2-5,1".data)) 10 [0, 1, 2, 3, 4]).1 (by decide)⟩

/-- Per-character idempotence: the sanitizer's output characters (original
safe characters, or the replacement `-`) are left unchanged by a second
sanitization. -/
theorem sanitizeChar_fix (c : Char) :
    (if isSafeChar (if isSafeChar c then c else '-') then
        (if isSafeChar c then c else '-') else '-') =
      if isSafeChar c then c else '-' := by
  by_cases h : isSafeChar c = true
  · simp [h]
  · simp [h]

/-- C9: the name sanitizer is idempotent — every character it outputs is in
the safe class (the replacement `-` included), so a second pass is the
identity. -/
theorem spec_C9 : ∀ s : List Char, safe_name (safe_name s) = safe_name s := by
  intro s
  induction s with
  | nil => rfl
  | cons c cs ih =>
    simp only [safe_name, List.map_cons] at ih ⊢
    rw [sanitizeChar_fix c, ih]

/-- C6 counterexample: the selector `"1,,2"` contains an empty token, yet
the GUI parser does not fail — it silently skips the token and returns
`[0, 1]`.  (The CLI parser does raise on the same input.) -/
theorem spec_C6_cex :
    parse_page_range_gui (some ("1,,2".data)) 5 = some [0, 1] ∧
      parse_page_range_main (some ("1,,2".data)) 5 = none := by decide

/-- C8 counterexample: on `parse("7-9", 5)` the code leaves the range start
unclamped above (`max(1, 7) = 7 > min(5, 9) = 5`) and drops the whole range,
returning `[]`; clamping both bounds into `[1, 5]` as the claim states would
instead return `[4]`. -/
theorem spec_C8_cex :
    parse_page_range_gui (some ("7-9".data)) 5 = some [] ∧
      parse_page_range_main (some ("7-9".data)) 5 = some [] ∧
      parse_page_range_specClamp (some ("7-9".data)) 5 = some [4] := by decide

/-! ## Malformed tokens (claim C6) -/

/-- A stripped token on which `int()` raises: either no `-` and the token is
not an integer literal, or the text on either side of the first `-` is not
an integer literal.  (The empty token is malformed in this sense.) -/
def malformedTok (q : List Char) : Bool :=
  match splitDash1 q with
  | some ab => (pyInt ab.1).isNone || (pyInt ab.2).isNone
  | none => (pyInt q).isNone

theorem procTokGui_none (n : Nat) (acc : List Int) (part : List Char)
    (hne : strip part ≠ []) (hmal : malformedTok (strip part) = true) :
    procTokGui n acc part = none := by
  have hie : (strip part).isEmpty = false := by
    rcases hq : strip part with _ | ⟨c, t⟩
    · exact absurd hq hne
    · rfl
  unfold malformedTok at hmal
  unfold procTokGui
  rw [hie]
  simp only [Bool.false_eq_true, if_false]
  rcases hd : splitDash1 (strip part) with _ | ab <;> rw [hd] at hmal <;>
    simp only [] at hmal
  · rcases hp : pyInt (strip part) with _ | p
    · simp [hp]
    · rw [hp] at hmal
      simp at hmal
  · rcases h1 : pyInt ab.1 with _ | ia
    · simp [h1]
    · rcases h2 : pyInt ab.2 with _ | ib
      · simp [h1, h2]
      · rw [h1, h2] at hmal
        simp at hmal

theorem procTokMain_none (n : Nat) (acc : List Int) (part : List Char)
    (hmal : malformedTok (strip part) = true) :
    procTokMain n acc part = none := by
  unfold malformedTok at hmal
  unfold procTokMain
  rcases hd : splitDash1 (strip part) with _ | ab <;> rw [hd] at hmal <;>
    simp only [] at hmal
  · rcases hp : pyInt (strip part) with _ | p
    · simp [hp]
    · rw [hp] at hmal
      simp at hmal
  · rcases h1 : pyInt ab.1 with _ | ia
    · simp [h1]
    · rcases h2 : pyInt ab.2 with _ | ib
      · simp [h1, h2]
      · rw [h1, h2] at hmal
        simp at hmal

theorem foldToks_none (f : List Int → List Char → Option (List Int)) (t : List Char)
    (hf : ∀ acc, f acc t = none) :
    ∀ ts acc, t ∈ ts → foldToks f ts acc = none := by
  intro ts
  induction ts with
  | nil =>
    intro acc hmem
    cases hmem
  | cons t0 ts ih =>
    intro acc hmem
    simp only [foldToks]
    rcases List.mem_cons.mp hmem with rfl | hmem2
    · rw [hf acc]
      rfl
    · rcases h0 : f acc t0 with _ | acc1
      · rfl
      · exact ih acc1 hmem2

/-- C6 (amended): a selector containing a malformed token fails the parse
before any extraction — with the qualification the code forces: a non-empty
malformed token (e.g. non-numeric text) raises in both the GUI and the CLI
variant, but an empty token is silently skipped by the GUI variant
(`if not part: continue`) while the CLI variant raises on it. -/
theorem spec_C6 (s : List Char) (n : Nat) (part : List Char)
    (hmem : part ∈ splitComma s) (hmal : malformedTok (strip part) = true)
    (hs : s ≠ []) :
    (strip part ≠ [] → parse_page_range_gui (some s) n = none) ∧
      parse_page_range_main (some s) n = none := by
  have hie : s.isEmpty = false := by
    rcases s with _ | ⟨c, t⟩
    · exact absurd rfl hs
    · rfl
  constructor
  · intro hne
    simp only [parse_page_range_gui, hie, Bool.false_eq_true, if_false]
    rw [foldToks_none (procTokGui n) part
      (fun acc => procTokGui_none n acc part hne hmal) (splitComma s) [] hmem]
    rfl
  · simp only [parse_page_range_main, hie, Bool.false_eq_true, if_false]
    rw [foldToks_none (procTokMain n) part
      (fun acc => procTokMain_none n acc part hmal) (splitComma s) [] hmem]
    rfl

/-- C6 witness: the selector `"1,x"` contains the malformed non-empty token
`"x"`, and both parser variants fail on it. -/
theorem spec_C6_witness :
    ("x".data ∈ splitComma ("1,x".data) ∧ malformedTok (strip ("x".data)) = true ∧
        "1,x".data ≠ []) ∧
      parse_page_range_gui (some ("1,x".data)) 5 = none ∧
        parse_page_range_main (some ("1,x".data)) 5 = none :=
  ⟨⟨by decide, by decide, by decide⟩,
    (spec_C6 ("1,x".data) 5 ("x".data) (by decide) (by decide) (by decide)).1 (by decide),
    (spec_C6 ("1,x".data) 5 ("x".data) (by decide) (by decide) (by decide)).2⟩

/-- C8 (amended): a single-page token outside `[1, pageCount]` contributes
no index; for a range token the start bound is adjusted from below to 1 and
the end bound from above to pageCount (the start is not capped at pageCount,
nor the end raised to 1), the token contributing exactly the pages in
`[max(1, start), min(pageCount, end)]` — nothing when that interval is
empty; and `parse("100", 5) = []`. -/
theorem spec_C8 (n : Nat) :
    (∀ (acc : List Int) (part : List Char) (ab : List Char × List Char) (ia ib : Int),
      strip part ≠ [] → splitDash1 (strip part) = some ab →
      pyInt ab.1 = some ia → pyInt ab.2 = some ib →
      ∃ acc', procTokGui n acc part = some acc' ∧
        ∀ x : Int, x ∈ acc' ↔ x ∈ acc ∨ (max 1 ia ≤ x ∧ x ≤ min (n : Int) ib)) ∧
    (∀ (acc : List Int) (part : List Char) (p : Int),
      strip part ≠ [] → splitDash1 (strip part) = none →
      pyInt (strip part) = some p → ¬(1 ≤ p ∧ p ≤ (n : Int)) →
      procTokGui n acc part = some acc) ∧
    parse_page_range_gui (some ("100".data)) 5 = some [] := by
  refine ⟨?_, ?_, by decide⟩
  · intro acc part ab ia ib hne hd h1 h2
    have hie : (strip part).isEmpty = false := by
      rcases hq : strip part with _ | ⟨c, t⟩
      · exact absurd hq hne
      · rfl
    unfold procTokGui
    rw [hie]
    simp only [Bool.false_eq_true, if_false, hd, h1, h2]
    by_cases hle : max 1 ia ≤ min (n : Int) ib
    · rw [if_pos hle]
      refine ⟨_, rfl, fun x => ?_⟩
      rw [mem_setUpdate, mem_pyRange]
    · rw [if_neg hle]
      refine ⟨acc, rfl, fun x => ⟨fun hx => Or.inl hx, fun hx => ?_⟩⟩
      rcases hx with hx | hx
      · exact hx
      · exact absurd (le_trans hx.1 hx.2) hle
  · intro acc part p hne hd hp hnp
    have hie : (strip part).isEmpty = false := by
      rcases hq : strip part with _ | ⟨c, t⟩
      · exact absurd hq hne
      · rfl
    unfold procTokGui
    rw [hie]
    simp only [Bool.false_eq_true, if_false, hd, hp]
    rw [if_neg hnp]

/-- C8 witness: the out-of-range single page `"100"` against 5 pages
contributes nothing. -/
theorem spec_C8_witness :
    (strip ("100".data) ≠ [] ∧ splitDash1 (strip ("100".data)) = none ∧
        pyInt (strip ("100".data)) = some 100 ∧
        ¬((1 : Int) ≤ 100 ∧ (100 : Int) ≤ ((5 : Nat) : Int))) ∧
      procTokGui 5 [] ("100".data) = some [] :=
  ⟨⟨by decide, by decide, by decide, by decide⟩,
    (spec_C8 5).2.1 [] ("100".data) 100 (by decide) (by decide) (by decide) (by decide)⟩

/-! ## Embedded-image extraction (src/gui.py 185-231, src/main.py 63-97)

A document page is modelled as the list of xrefs that
`page.get_images(full=True)` reports (the xref is `img[0]`); `extOf`
abstracts `doc.extract_image(xref)["ext"]`.  The model follows the
happy path: library calls and file writes do not fail. -/

def digitChar (d : Nat) : Char := Char.ofNat (48 + d)

def natDecAux : Nat → Nat → List Char → List Char
  | 0, _, acc => acc
  | fuel + 1, m, acc =>
    if m < 10 then digitChar m :: acc
    else natDecAux fuel (m / 10) (digitChar (m % 10) :: acc)

/-- Decimal rendering of a natural number (Python `f"{k}"`). -/
def natDec (m : Nat) : List Char := natDecAux (m + 1) m []

/-- Python `f"{m:03d}"`: zero-pad the decimal form to width 3. -/
def pad3 (m : Nat) : List Char :=
  if (natDec m).length < 3 then List.replicate (3 - (natDec m).length) '0' ++ natDec m
  else natDec m

/-- `f"page-{idx+1:03d}"` for the zero-based page index `idx`. -/
def pagePfx (idx : Nat) : List Char := "page-".data ++ pad3 (idx + 1)

/-- The embedded-image output file name
`safe_name(f"page-{idx+1:03d}-img-{pos}.{ext}")` (src/gui.py 220,
src/main.py 83). -/
def imgFileName (idx pos : Nat) (ext : List Char) : List Char :=
  safe_name (pagePfx idx ++ "-img-".data ++ natDec pos ++ ('.' :: ext))

/-- One embedded image written to disk: source page index (zero-based),
1-based position in that page's full image list, the image xref, and the
output file name. -/
structure SavedImage where
  pageIdx : Nat
  imgPos : Nat
  xref : Nat
  fname : List Char
deriving DecidableEq

/-- The inner loop `for img_pos, img in enumerate(images, start=1)`
(src/gui.py 211-231, src/main.py 73-97): an xref already in `seen_xrefs`
is skipped (`continue`), otherwise it is added to the set and its bytes are
written; `pos` is the enumeration counter, advanced for every image. -/
def processPage (extOf : Nat → List Char) (pageIdx : Nat) :
    List Nat → Nat → List Nat → List SavedImage × List Nat
  | [], _, seen => ([], seen)
  | x :: rest, pos, seen =>
    if x ∈ seen then processPage extOf pageIdx rest (pos + 1) seen
    else
      (SavedImage.mk pageIdx pos x (imgFileName pageIdx pos (extOf x)) ::
          (processPage extOf pageIdx rest (pos + 1) (x :: seen)).1,
        (processPage extOf pageIdx rest (pos + 1) (x :: seen)).2)

/-- The page loop of the extractor restricted to embedded images:
`seen_xrefs` is threaded through the selected pages in order
(`doc[idx]` is `pages.getD idx []`; the indices produced by
`parse_page_range` are always in range). -/
def extractPass (extOf : Nat → List Char) (pages : List (List Nat)) :
    List Nat → List Nat → List SavedImage × List Nat
  | [], seen => ([], seen)
  | idx :: rest, seen =>
    ((processPage extOf idx (pages.getD idx []) 1 seen).1 ++
        (extractPass extOf pages rest
          ((processPage extOf idx (pages.getD idx []) 1 seen).2)).1,
      (extractPass extOf pages rest
        ((processPage extOf idx (pages.getD idx []) 1 seen).2)).2)

theorem processPage_seen (extOf : Nat → List Char) (i : Nat) (imgs : List Nat)
    (pos : Nat) (seen : List Nat) (y : Nat) :
    y ∈ (processPage extOf i imgs pos seen).2 ↔ y ∈ seen ∨ y ∈ imgs := by
  induction imgs generalizing pos seen with
  | nil => simp [processPage]
  | cons x rest ih =>
    simp only [processPage]
    by_cases hx : x ∈ seen
    · rw [if_pos hx, ih]
      simp only [List.mem_cons]
      constructor
      · rintro (h | h)
        · exact Or.inl h
        · exact Or.inr (Or.inr h)
      · rintro (h | h | h)
        · exact Or.inl h
        · exact Or.inl (by rw [h]; exact hx)
        · exact Or.inr h
    · rw [if_neg hx]
      simp only [ih, List.mem_cons]
      tauto

theorem processPage_count (extOf : Nat → List Char) (i : Nat) (imgs : List Nat)
    (pos : Nat) (seen : List Nat) (y : Nat) :
    (processPage extOf i imgs pos seen).1.countP (fun r => r.xref == y) =
      if y ∈ imgs ∧ y ∉ seen then 1 else 0 := by
  induction imgs generalizing pos seen with
  | nil => simp [processPage]
  | cons x rest ih =>
    simp only [processPage]
    by_cases hx : x ∈ seen
    · rw [if_pos hx, ih]
      by_cases hy : y = x
      · subst hy
        simp [hx]
      · simp [List.mem_cons, hy]
    · rw [if_neg hx]
      simp only [List.countP_cons, ih]
      by_cases hy : y = x
      · subst hy
        simp [hx, List.mem_cons]
      · simp [List.mem_cons, hy, Ne.symm hy]

theorem processPage_rec_mem (extOf : Nat → List Char) (i : Nat) (imgs : List Nat)
    (pos : Nat) (seen : List Nat) (r : SavedImage)
    (hr : r ∈ (processPage extOf i imgs pos seen).1) :
    r.pageIdx = i ∧ r.xref ∈ imgs ∧ r.xref ∉ seen := by
  induction imgs generalizing pos seen with
  | nil => simp [processPage] at hr
  | cons x rest ih =>
    simp only [processPage] at hr
    by_cases hx : x ∈ seen
    · rw [if_pos hx] at hr
      have h := ih (pos + 1) seen hr
      exact ⟨h.1, List.mem_cons_of_mem x h.2.1, h.2.2⟩
    · rw [if_neg hx] at hr
      rcases List.mem_cons.mp hr with rfl | hr2
      · exact ⟨rfl, List.mem_cons_self x rest, hx⟩
      · have h := ih (pos + 1) (x :: seen) hr2
        refine ⟨h.1, List.mem_cons_of_mem x h.2.1, fun hc => h.2.2 ?_⟩
        exact List.mem_cons_of_mem x hc

theorem processPage_pos (extOf : Nat → List Char) (i : Nat) (imgs : List Nat)
    (pos : Nat) (seen : List Nat) (r : SavedImage)
    (hr : r ∈ (processPage extOf i imgs pos seen).1) :
    pos ≤ r.imgPos ∧ imgs.get? (r.imgPos - pos) = some r.xref ∧
      r.fname = imgFileName i r.imgPos (extOf r.xref) := by
  induction imgs generalizing pos seen with
  | nil => simp [processPage] at hr
  | cons x rest ih =>
    simp only [processPage] at hr
    by_cases hx : x ∈ seen
    · rw [if_pos hx] at hr
      have h := ih (pos + 1) seen hr
      refine ⟨by omega, ?_, h.2.2⟩
      rw [show r.imgPos - pos = (r.imgPos - (pos + 1)) + 1 by omega]
      simpa using h.2.1
    · rw [if_neg hx] at hr
      rcases List.mem_cons.mp hr with rfl | hr2
      · exact ⟨le_refl pos, by simp, rfl⟩
      · have h := ih (pos + 1) (x :: seen) hr2
        refine ⟨by omega, ?_, h.2.2⟩
        rw [show r.imgPos - pos = (r.imgPos - (pos + 1)) + 1 by omega]
        simpa using h.2.1

theorem extractPass_count (extOf : Nat → List Char) (pages : List (List Nat))
    (idxs : List Nat) (seen : List Nat) (y : Nat) :
    (extractPass extOf pages idxs seen).1.countP (fun r => r.xref == y) =
      if (∃ i ∈ idxs, y ∈ pages.getD i []) ∧ y ∉ seen then 1 else 0 := by
  induction idxs generalizing seen with
  | nil => simp [extractPass]
  | cons idx rest ih =>
    have hseen := processPage_seen extOf idx (pages.getD idx []) 1 seen y
    simp only [extractPass, List.countP_append]
    rw [processPage_count, ih]
    by_cases hs : y ∈ seen
    · rw [if_neg (fun hc => hc.2 hs), if_neg (fun hc => hc.2 (hseen.mpr (Or.inl hs))),
        if_neg (fun hc : (∃ i ∈ idx :: rest, y ∈ pages.getD i []) ∧ y ∉ seen => hc.2 hs)]
    · by_cases h1 : y ∈ pages.getD idx []
      · rw [if_pos ⟨h1, hs⟩, if_neg (fun hc => hc.2 (hseen.mpr (Or.inr h1))),
          if_pos ⟨⟨idx, List.mem_cons_self idx rest, h1⟩, hs⟩]
      · have hns2 : y ∉ (processPage extOf idx (pages.getD idx []) 1 seen).2 := by
          intro hc
          rcases hseen.mp hc with hc2 | hc2
          · exact hs hc2
          · exact h1 hc2
        have hiff : ((∃ i ∈ rest, y ∈ pages.getD i []) ∧
              y ∉ (processPage extOf idx (pages.getD idx []) 1 seen).2) ↔
            ((∃ i ∈ idx :: rest, y ∈ pages.getD i []) ∧ y ∉ seen) := by
          constructor
          · rintro ⟨⟨i, hi, hyi⟩, _⟩
            exact ⟨⟨i, List.mem_cons_of_mem idx hi, hyi⟩, hs⟩
          · rintro ⟨⟨i, hi, hyi⟩, _⟩
            rcases List.mem_cons.mp hi with rfl | hi2
            · exact absurd hyi h1
            · exact ⟨⟨i, hi2, hyi⟩, hns2⟩
        rw [if_neg (fun hc => h1 hc.1), if_congr hiff rfl rfl, Nat.zero_add]

theorem extractPass_attrib (extOf : Nat → List Char) (pages : List (List Nat))
    (idxs : List Nat) (seen : List Nat) (r : SavedImage)
    (hsorted : idxs.Sorted (· ≤ ·))
    (hr : r ∈ (extractPass extOf pages idxs seen).1) :
    r.pageIdx ∈ idxs ∧ r.xref ∈ pages.getD r.pageIdx [] ∧ r.xref ∉ seen ∧
      ∀ j ∈ idxs, r.xref ∈ pages.getD j [] → r.pageIdx ≤ j := by
  induction idxs generalizing seen with
  | nil => simp [extractPass] at hr
  | cons idx rest ih =>
    have hsrest : rest.Sorted (· ≤ ·) := (List.sorted_cons.mp hsorted).2
    have hslo : ∀ b ∈ rest, idx ≤ b := (List.sorted_cons.mp hsorted).1
    simp only [extractPass] at hr
    rcases List.mem_append.mp hr with h1 | h2
    · have hm := processPage_rec_mem extOf idx _ 1 seen r h1
      refine ⟨by rw [hm.1]; exact List.mem_cons_self idx rest,
        by rw [hm.1]; exact hm.2.1, hm.2.2, ?_⟩
      intro j hj hyj
      rcases List.mem_cons.mp hj with rfl | hj2
      · rw [hm.1]
      · rw [hm.1]
        exact hslo j hj2
    · have hrec := ih ((processPage extOf idx (pages.getD idx []) 1 seen).2) hsrest h2
      refine ⟨List.mem_cons_of_mem idx hrec.1, hrec.2.1, ?_, ?_⟩
      · intro hc
        exact hrec.2.2.1 ((processPage_seen extOf idx _ 1 seen r.xref).mpr (Or.inl hc))
      · intro j hj hyj
        rcases List.mem_cons.mp hj with rfl | hj2
        · exact absurd ((processPage_seen extOf _ _ 1 seen r.xref).mpr (Or.inr hyj))
            hrec.2.2.1
        · exact hrec.2.2.2 j hj2 hyj

/-- C1: an image xref appearing on two or more selected pages is written
exactly once, and any record with that xref is attributed to the first page
(in the ascending selected order) whose image list contains it; later
encounters are skipped. -/
theorem spec_C1 (extOf : Nat → List Char) (pages : List (List Nat))
    (idxs : List Nat) (y : Nat) (hsorted : idxs.Sorted (· ≤ ·))
    (hy : ∃ i ∈ idxs, ∃ j ∈ idxs, i ≠ j ∧ y ∈ pages.getD i [] ∧ y ∈ pages.getD j []) :
    (extractPass extOf pages idxs []).1.countP (fun r => r.xref == y) = 1 ∧
      ∀ r ∈ (extractPass extOf pages idxs []).1, r.xref = y →
        r.pageIdx ∈ idxs ∧ y ∈ pages.getD r.pageIdx [] ∧
          ∀ j ∈ idxs, y ∈ pages.getD j [] → r.pageIdx ≤ j := by
  constructor
  · rw [extractPass_count]
    rcases hy with ⟨i, hi, _, _, _, hyi, _⟩
    rw [if_pos ⟨⟨i, hi, hyi⟩, List.not_mem_nil y⟩]
  · intro r hr hxy
    have h := extractPass_attrib extOf pages idxs [] r hsorted hr
    rw [hxy] at h
    exact ⟨h.1, h.2.1, h.2.2.2⟩

/-- C1 witness: xref 7 appears on both selected pages of a two-page
document; it is saved once and attributed to page index 0. -/
theorem spec_C1_witness :
    (([0, 1] : List Nat).Sorted (· ≤ ·) ∧
        (∃ i ∈ ([0, 1] : List Nat), ∃ j ∈ ([0, 1] : List Nat), i ≠ j ∧
          7 ∈ ([[7], [7]] : List (List Nat)).getD i [] ∧
          7 ∈ ([[7], [7]] : List (List Nat)).getD j [])) ∧
      ((extractPass (fun _ => "png".data) [[7], [7]] [0, 1] []).1.countP
          (fun r => r.xref == 7) = 1 ∧
        ∀ r ∈ (extractPass (fun _ => "png".data) [[7], [7]] [0, 1] []).1,
          r.xref = 7 →
            r.pageIdx ∈ ([0, 1] : List Nat) ∧
              7 ∈ ([[7], [7]] : List (List Nat)).getD r.pageIdx [] ∧
              ∀ j ∈ ([0, 1] : List Nat),
                7 ∈ ([[7], [7]] : List (List Nat)).getD j [] → r.pageIdx ≤ j) :=
  ⟨⟨by decide, by decide⟩,
    spec_C1 (fun _ => "png".data) [[7], [7]] [0, 1] 7 (by decide) (by decide)⟩

/-- C10: every saved image's filename index is its 1-based position in the
page's full image list — the enumeration counts every listed image,
duplicates skipped as already-seen included — and the file name is built
from that position; hence saved positions on a page need not start at 1
nor be consecutive. -/
theorem spec_C10 (extOf : Nat → List Char) (pages : List (List Nat))
    (idxs : List Nat) (seen : List Nat) (r : SavedImage)
    (hr : r ∈ (extractPass extOf pages idxs seen).1) :
    1 ≤ r.imgPos ∧ (pages.getD r.pageIdx []).get? (r.imgPos - 1) = some r.xref ∧
      r.fname = imgFileName r.pageIdx r.imgPos (extOf r.xref) := by
  induction idxs generalizing seen with
  | nil => simp [extractPass] at hr
  | cons idx rest ih =>
    simp only [extractPass] at hr
    rcases List.mem_append.mp hr with h1 | h2
    · have hm := processPage_rec_mem extOf idx _ 1 seen r h1
      have hp := processPage_pos extOf idx _ 1 seen r h1
      rw [hm.1]
      exact hp
    · exact ih ((processPage extOf idx (pages.getD idx []) 1 seen).2) h2

/-- C10 witness: in a document whose page 0 holds xref 5 and page 1 holds
xrefs 5 then 6, the only file saved from page 1 is `page-002-img-2.png`
(position 2, position 1 having been skipped as a duplicate). -/
theorem spec_C10_witness :
    ((extractPass (fun _ => "png".data) [[5], [5, 6]] [0, 1] []).1 =
        [SavedImage.mk 0 1 5 ("page-001-img-1.png".data),
          SavedImage.mk 1 2 6 ("page-002-img-2.png".data)] ∧
      SavedImage.mk 1 2 6 ("page-002-img-2.png".data) ∈
        (extractPass (fun _ => "png".data) [[5], [5, 6]] [0, 1] []).1) ∧
      (1 ≤ (2 : Nat) ∧ ([5, 6] : List Nat).get? (2 - 1) = some 6 ∧
        ("page-002-img-2.png".data : List Char) = imgFileName 1 2 ("png".data)) :=
  ⟨⟨by decide, by decide⟩,
    spec_C10 (fun _ => "png".data) [[5], [5, 6]] [0, 1] []
      (SavedImage.mk 1 2 6 ("page-002-img-2.png".data)) (by decide)⟩

/-! ## Filename collision resolution (src/gui.py 222-227 and 246-251)

The output folder is modelled as the list `fs` of file names it already
contains.  The Python `while` loops terminate because the folder holds
finitely many files and distinct suffixes give distinct names; the model
bounds the probe by `fs.length + 1` attempts, which always suffices, and
the theorems assume a free candidate within that bound (discharged at any
concrete folder). -/

/-- `while candidate(suf) exists: suf += 1` — first free suffix from
`start`, probing at most `fuel` taken names. -/
def probeLoop (fs : List (List Char)) (mk : Nat → List Char) : Nat → Nat → Nat
  | 0, start => start
  | fuel + 1, start =>
    if mk start ∈ fs then probeLoop fs mk fuel (start + 1) else start

/-- `f"{stem}-{suf}.{ext}"` (src/gui.py 225, src/main.py 90). -/
def mkSufName (stem ext : List Char) (suf : Nat) : List Char :=
  stem ++ ('-' :: natDec suf) ++ ('.' :: ext)

/-- Embedded-image collision resolution (src/gui.py 222-227, likewise
src/main.py 86-92): with overwrite disabled and the candidate name taken,
probe suffixes starting at 2 and take the first free one.  `stem`/`ext`
are `Path.stem` and the extension (the generated names hold one dot). -/
def resolveImgName (fs : List (List Char)) (overwrite : Bool)
    (stem ext : List Char) : List Char :=
  if overwrite = false ∧ (stem ++ ('.' :: ext)) ∈ fs then
    mkSufName stem ext (probeLoop fs (mkSufName stem ext) (fs.length + 1) 2)
  else stem ++ ('.' :: ext)

/-- `f"{page_prefix}-{n}.png"` (src/gui.py 249). -/
def mkPngSufName (pfx : List Char) (k : Nat) : List Char :=
  pfx ++ ('-' :: natDec k) ++ ".png".data

/-- Page-PNG collision resolution (src/gui.py 246-251): with overwrite
disabled and `{pfx}.png` taken, probe suffixes starting at 1 (`n = 1`)
and take the first free one. -/
def resolvePngName (fs : List (List Char)) (overwrite : Bool)
    (pfx : List Char) : List Char :=
  if overwrite = false ∧ (pfx ++ ".png".data) ∈ fs then
    mkPngSufName pfx (probeLoop fs (mkPngSufName pfx) (fs.length + 1) 1)
  else pfx ++ ".png".data

theorem probeLoop_first_free (fs : List (List Char)) (mk : Nat → List Char) :
    ∀ (fuel start : Nat), (∃ k, k ≤ fuel ∧ mk (start + k) ∉ fs) →
      mk (probeLoop fs mk fuel start) ∉ fs ∧ start ≤ probeLoop fs mk fuel start ∧
        ∀ j, start ≤ j → j < probeLoop fs mk fuel start → mk j ∈ fs := by
  intro fuel
  induction fuel with
  | zero =>
    intro start h
    rcases h with ⟨k, hk, hfree⟩
    have hk0 : k = 0 := Nat.le_zero.mp hk
    subst hk0
    simp only [probeLoop]
    exact ⟨by simpa using hfree, le_refl _, fun j h1 h2 => absurd h2 (by omega)⟩
  | succ fuel ih =>
    intro start h
    simp only [probeLoop]
    by_cases hs : mk start ∈ fs
    · rw [if_pos hs]
      have hex : ∃ k, k ≤ fuel ∧ mk (start + 1 + k) ∉ fs := by
        rcases h with ⟨k, hk, hfree⟩
        rcases k with _ | k2
        · exact absurd hs (by simpa using hfree)
        · refine ⟨k2, by omega, ?_⟩
          rw [show start + 1 + k2 = start + (k2 + 1) by omega]
          exact hfree
      have hrec := ih (start + 1) hex
      refine ⟨hrec.1, by omega, fun j h1 h2 => ?_⟩
      rcases Nat.eq_or_lt_of_le h1 with rfl | h3
      · exact hs
      · exact hrec.2.2 j (by omega) h2
    · rw [if_neg hs]
      exact ⟨hs, le_refl _, fun j h1 h2 => absurd h2 (by omega)⟩

/-- C3 (amended): with overwrite disabled neither resolver ever returns the
name of an existing file; on a collision the embedded-image path probes
suffixes `-2, -3, …` and uses the first free candidate, while the page-PNG
path probes `-1, -2, …` (not `-2` first) and uses the first free candidate. -/
theorem spec_C3 (fs : List (List Char)) (stem ext pfx : List Char)
    (himg : ∃ k, k ≤ fs.length + 1 ∧ mkSufName stem ext (2 + k) ∉ fs)
    (hpng : ∃ k, k ≤ fs.length + 1 ∧ mkPngSufName pfx (1 + k) ∉ fs) :
    resolveImgName fs false stem ext ∉ fs ∧
      (stem ++ ('.' :: ext) ∈ fs →
        ∃ suf, 2 ≤ suf ∧ resolveImgName fs false stem ext = mkSufName stem ext suf ∧
          ∀ j, 2 ≤ j → j < suf → mkSufName stem ext j ∈ fs) ∧
      resolvePngName fs false pfx ∉ fs ∧
      (pfx ++ ".png".data ∈ fs →
        ∃ k, 1 ≤ k ∧ resolvePngName fs false pfx = mkPngSufName pfx k ∧
          ∀ j, 1 ≤ j → j < k → mkPngSufName pfx j ∈ fs) := by
  have hi := probeLoop_first_free fs (mkSufName stem ext) (fs.length + 1) 2 himg
  have hp := probeLoop_first_free fs (mkPngSufName pfx) (fs.length + 1) 1 hpng
  refine ⟨?_, ?_, ?_, ?_⟩
  · by_cases hc : (stem ++ ('.' :: ext)) ∈ fs
    · unfold resolveImgName
      rw [if_pos ⟨rfl, hc⟩]
      exact hi.1
    · unfold resolveImgName
      rw [if_neg (fun h => hc h.2)]
      exact hc
  · intro hc
    unfold resolveImgName
    rw [if_pos ⟨rfl, hc⟩]
    exact ⟨probeLoop fs (mkSufName stem ext) (fs.length + 1) 2, hi.2.1, rfl,
      fun j h2 hj => hi.2.2 j h2 hj⟩
  · by_cases hc : (pfx ++ ".png".data) ∈ fs
    · unfold resolvePngName
      rw [if_pos ⟨rfl, hc⟩]
      exact hp.1
    · unfold resolvePngName
      rw [if_neg (fun h => hc h.2)]
      exact hc
  · intro hc
    unfold resolvePngName
    rw [if_pos ⟨rfl, hc⟩]
    exact ⟨probeLoop fs (mkPngSufName pfx) (fs.length + 1) 1, hp.2.1, rfl,
      fun j h1 hj => hp.2.2 j h1 hj⟩

/-- C3 counterexample: for the page-PNG path the claim predicts probing
`-2` first, but with `page-001.png` already present the code produces
`page-001-1.png` (src/gui.py 248: `n = 1`), not `page-001-2.png`. -/
theorem spec_C3_cex :
    resolvePngName ["page-001.png".data] false ("page-001".data) =
        "page-001-1.png".data ∧
      "page-001-1.png".data ≠ "page-001-2.png".data := by decide

/-- C3 witness: with `page-001-img-1.png` present, the embedded-image
resolver returns the fresh `page-001-img-1-2.png`, and on a third write
(both earlier names present) `page-001-img-1-3.png`. -/
theorem spec_C3_witness :
    ((∃ k, k ≤ 2 ∧ mkSufName ("page-001-img-1".data) ("png".data) (2 + k) ∉
          ["page-001-img-1.png".data]) ∧
        (∃ k, k ≤ 2 ∧ mkPngSufName ("page-001".data) (1 + k) ∉
          ["page-001-img-1.png".data])) ∧
      (resolveImgName ["page-001-img-1.png".data] false
          ("page-001-img-1".data) ("png".data) ∉ ["page-001-img-1.png".data] ∧
        ("page-001-img-1".data ++ ('.' :: "png".data) ∈ ["page-001-img-1.png".data] →
          ∃ suf, 2 ≤ suf ∧
            resolveImgName ["page-001-img-1.png".data] false
                ("page-001-img-1".data) ("png".data) =
              mkSufName ("page-001-img-1".data) ("png".data) suf ∧
            ∀ j, 2 ≤ j → j < suf →
              mkSufName ("page-001-img-1".data) ("png".data) j ∈
                ["page-001-img-1.png".data]) ∧
        resolvePngName ["page-001-img-1.png".data] false ("page-001".data) ∉
          ["page-001-img-1.png".data] ∧
        ("page-001".data ++ ".png".data ∈ ["page-001-img-1.png".data] →
          ∃ k, 1 ≤ k ∧
            resolvePngName ["page-001-img-1.png".data] false ("page-001".data) =
              mkPngSufName ("page-001".data) k ∧
            ∀ j, 1 ≤ j → j < k →
              mkPngSufName ("page-001".data) j ∈ ["page-001-img-1.png".data])) ∧
      (resolveImgName ["page-001-img-1.png".data] false
          ("page-001-img-1".data) ("png".data) = "page-001-img-1-2.png".data ∧
        resolveImgName ["page-001-img-1.png".data, "page-001-img-1-2.png".data]
            false ("page-001-img-1".data) ("png".data) =
          "page-001-img-1-3.png".data) :=
  ⟨⟨⟨0, by decide, by decide⟩, ⟨0, by decide, by decide⟩⟩,
    spec_C3 ["page-001-img-1.png".data] ("page-001-img-1".data) ("png".data)
      ("page-001".data) ⟨0, by decide, by decide⟩ ⟨0, by decide, by decide⟩,
    by decide, by decide⟩

/-! ## Run report (src/gui.py 104-149) and batch loop (src/gui.py 279-321)

Timestamps (`started_at`, `finished_at`) are wall-clock strings and stay
outside the model; everything else in `to_dict` is kept. -/

/-- A `add_file_result` record (src/gui.py 112-121); an error entry pairs
the 1-based page with its message. -/
structure FileResult where
  input : List Char
  total_pages : Nat
  pages_processed : List Nat
  images_extracted : Nat
  page_pngs : Nat
  errors : List (Nat × List Char)
deriving DecidableEq

/-- The mutable state of `ExtractionReport`. -/
structure Report where
  batch_mode : Bool
  files : List FileResult
  global_errors : List (List Char)
deriving DecidableEq

/-- `ExtractionReport.add_file_result` (append-only). -/
def add_file_result (rep : Report) (fr : FileResult) : Report :=
  Report.mk rep.batch_mode (rep.files ++ [fr]) rep.global_errors

/-- `ExtractionReport.add_global_error` (append-only). -/
def add_global_error (rep : Report) (msg : List Char) : Report :=
  Report.mk rep.batch_mode rep.files (rep.global_errors ++ [msg])

/-- The summary block of `to_dict` (src/gui.py 134-138). -/
structure Summary where
  total_images : Nat
  total_pages_exported : Nat
  files_with_errors : Nat
deriving DecidableEq

/-- The serialized report (src/gui.py 126-139), timestamps omitted. -/
structure ReportDict where
  batch_mode : Bool
  file_count : Nat
  files : List FileResult
  global_errors : List (List Char)
  summary : Summary
deriving DecidableEq

/-- `ExtractionReport.to_dict`: every summary field is recomputed from the
current `files` list at serialization time — the Python `sum(...)`
generator expressions are left folds from 0, and `sum(1 for f in files if
f["errors"])` adds 1 per file whose error list is non-empty (truthy). -/
def to_dict (rep : Report) : ReportDict :=
  ReportDict.mk rep.batch_mode rep.files.length rep.files rep.global_errors
    (Summary.mk
      (rep.files.foldl (fun a f => a + f.images_extracted) 0)
      (rep.files.foldl (fun a f => a + f.page_pngs) 0)
      (rep.files.foldl (fun a f => if f.errors = [] then a else a + 1) 0))

theorem foldl_add_from (g : FileResult → Nat) (l : List FileResult) :
    ∀ a : Nat, l.foldl (fun acc f => acc + g f) a = a + (l.map g).sum := by
  induction l with
  | nil => simp
  | cons f rest ih =>
    intro a
    simp only [List.foldl_cons, List.map_cons, List.sum_cons, ih (a + g f)]
    omega

theorem foldl_errCount_from (l : List FileResult) :
    ∀ a : Nat, l.foldl (fun acc f => if f.errors = [] then acc else acc + 1) a =
      a + l.countP (fun f => !f.errors.isEmpty) := by
  induction l with
  | nil => simp
  | cons f rest ih =>
    intro a
    simp only [List.foldl_cons, List.countP_cons]
    by_cases h : f.errors = []
    · rw [if_pos h, ih a]
      have : (!f.errors.isEmpty) = false := by
        rw [h]
        rfl
      rw [this]
      simp
    · rw [if_neg h, ih (a + 1)]
      have : (!f.errors.isEmpty) = true := by
        rcases he : f.errors with _ | ⟨p, t⟩
        · exact absurd he h
        · rfl
      rw [this]
      simp
      omega

/-- C7: the serialized summary is computed fresh from the current
FileResult list — `total_images` is the sum of `images_extracted`,
`total_pages_exported` the sum of `page_pngs`, `files_with_errors` the
count of files with a non-empty error list — and appending a FileResult
shifts each field accordingly (nothing is cached). -/
theorem spec_C7 (rep : Report) (fr : FileResult) :
    ((to_dict rep).summary.total_images =
        (rep.files.map (fun f => f.images_extracted)).sum ∧
      (to_dict rep).summary.total_pages_exported =
        (rep.files.map (fun f => f.page_pngs)).sum ∧
      (to_dict rep).summary.files_with_errors =
        rep.files.countP (fun f => !f.errors.isEmpty)) ∧
    ((to_dict (add_file_result rep fr)).summary.total_images =
        (to_dict rep).summary.total_images + fr.images_extracted ∧
      (to_dict (add_file_result rep fr)).summary.total_pages_exported =
        (to_dict rep).summary.total_pages_exported + fr.page_pngs ∧
      (to_dict (add_file_result rep fr)).summary.files_with_errors =
        (to_dict rep).summary.files_with_errors +
          (if fr.errors = [] then 0 else 1)) := by
  have h1 := foldl_add_from (fun f => f.images_extracted) rep.files 0
  have h2 := foldl_add_from (fun f => f.page_pngs) rep.files 0
  have h3 := foldl_errCount_from rep.files 0
  constructor
  · exact ⟨by simpa using h1, by simpa using h2, by simpa using h3⟩
  · simp only [to_dict, add_file_result]
    refine ⟨?_, ?_, ?_⟩
    · rw [foldl_add_from, foldl_add_from]
      simp
    · rw [foldl_add_from, foldl_add_from]
      simp
    · rw [foldl_errCount_from, foldl_errCount_from]
      rw [List.countP_append]
      by_cases h : fr.errors = []
      · have : (!fr.errors.isEmpty) = false := by
          rw [h]
          rfl
        simp [h, this, List.countP_cons]
      · have : (!fr.errors.isEmpty) = true := by
          rcases he : fr.errors with _ | ⟨p, t⟩
          · exact absurd he h
          · rfl
        simp [h, this, List.countP_cons]

/-- An input document as the extractor observes it through the library:
its path string, whether `fitz.open` succeeds, and the per-page image xref
lists. -/
structure PdfDoc where
  name : List Char
  openOk : Bool
  pages : List (List Nat)

/-- The document-level message logged and recorded on open failure
(src/gui.py 174-177); the exception text is abstracted away. -/
def openErrMsg (d : PdfDoc) : List Char :=
  "Failed to open PDF: ".data ++ d.name

/-- The zero-based page indices `extract_single_pdf` visits for document
`d` under selector `sel` (`parse_page_range(pages, len(doc))`), as
naturals (`spec_C2` certifies the parsed indices are non-negative). -/
def docIdxs (sel : Option (List Char)) (d : PdfDoc) : List Nat :=
  ((parse_page_range_gui sel d.pages.length).getD []).map Int.toNat

/-- The images document `d` writes (first encounters per xref). -/
def docSaved (extOf : Nat → List Char) (sel : Option (List Char))
    (d : PdfDoc) : List SavedImage :=
  (extractPass extOf d.pages (docIdxs sel d) []).1

/-- The FileResult `extract_single_pdf` appends on success (src/gui.py
269-277): `pages_processed` collects `idx+1` for each visited page,
`images_extracted` counts the written images, `page_pngs` counts one PNG
per visited page when export is on; page-level library failures are outside
the happy-path model, so `errors` is empty. -/
def docFileResult (extOf : Nat → List Char) (exportPages : Bool)
    (sel : Option (List Char)) (d : PdfDoc) : FileResult :=
  FileResult.mk d.name d.pages.length ((docIdxs sel d).map (fun i => i + 1))
    (docSaved extOf sel d).length
    (if exportPages then (docIdxs sel d).length else 0) []

/-- `extract_single_pdf` (src/gui.py 151-277) reduced to its effect on the
report and the output folder: open failure records one global error and
returns at once (no FileResult); success appends exactly one FileResult and
writes the document's images.  `none` models an exception escaping the
function (only `parse_page_range` can raise in the model). -/
def singleRun (extOf : Nat → List Char) (exportPages : Bool)
    (sel : Option (List Char)) (d : PdfDoc) (rep : Report) :
    Option (Report × List SavedImage) :=
  if d.openOk then
    match parse_page_range_gui sel d.pages.length with
    | none => none
    | some _ =>
      some (add_file_result rep (docFileResult extOf exportPages sel d),
        docSaved extOf sel d)
  else some (add_global_error rep (openErrMsg d), [])

/-- The loop of `extract_batch_folder` (src/gui.py 302-321): before
starting each document the cancellation flag is polled — `stopAt i` is the
flag's value at the check preceding the 0-based `i`-th document; written
images accumulate across documents and are never removed. -/
def runBatchGo (extOf : Nat → List Char) (exportPages : Bool)
    (sel : Option (List Char)) (stopAt : Nat → Bool) :
    List PdfDoc → Nat → Report → List SavedImage →
      Option (Report × List SavedImage)
  | [], _, rep, outs => some (rep, outs)
  | d :: rest, i, rep, outs =>
    if stopAt i then some (rep, outs)
    else
      match singleRun extOf exportPages sel d rep with
      | none => none
      | some ro =>
        runBatchGo extOf exportPages sel stopAt rest (i + 1) ro.1 (outs ++ ro.2)

/-- `extract_batch_folder` (src/gui.py 279-321) on an already-discovered,
sorted document list, with the batch-mode report `_worker` creates. -/
def extract_batch_folder (extOf : Nat → List Char) (exportPages : Bool)
    (sel : Option (List Char)) (stopAt : Nat → Bool) (docs : List PdfDoc) :
    Option (Report × List SavedImage) :=
  runBatchGo extOf exportPages sel stopAt docs 0 (Report.mk true [] []) []

theorem singleRun_open (extOf : Nat → List Char) (expP : Bool)
    (sel : Option (List Char)) (d : PdfDoc) (rep : Report)
    (hok : d.openOk = true)
    (hp : (parse_page_range_gui sel d.pages.length).isSome = true) :
    singleRun extOf expP sel d rep =
      some (add_file_result rep (docFileResult extOf expP sel d),
        docSaved extOf sel d) := by
  unfold singleRun
  rw [if_pos hok]
  rcases hq : parse_page_range_gui sel d.pages.length with _ | v
  · rw [hq] at hp
    simp at hp
  · rfl

theorem singleRun_fail (extOf : Nat → List Char) (expP : Bool)
    (sel : Option (List Char)) (d : PdfDoc) (rep : Report)
    (hok : d.openOk = false) :
    singleRun extOf expP sel d rep =
      some (add_global_error rep (openErrMsg d), []) := by
  unfold singleRun
  rw [if_neg]
  rw [hok]
  exact Bool.false_ne_true

theorem runBatchGo_stop (extOf : Nat → List Char) (expP : Bool)
    (sel : Option (List Char)) (stopAt : Nat → Bool) :
    ∀ (docs : List PdfDoc) (k i : Nat) (rep : Report) (outs : List SavedImage),
      k ≤ docs.length →
      (∀ d ∈ docs.take k, d.openOk = true) →
      (∀ d ∈ docs.take k, (parse_page_range_gui sel d.pages.length).isSome = true) →
      (∀ j, stopAt (i + j) = decide (k ≤ j)) →
      runBatchGo extOf expP sel stopAt docs i rep outs =
        some (Report.mk rep.batch_mode
            (rep.files ++ (docs.take k).map (docFileResult extOf expP sel))
            rep.global_errors,
          outs ++ ((docs.take k).map (docSaved extOf sel)).flatten) := by
  intro docs
  induction docs with
  | nil =>
    intro k i rep outs hk _ _ _
    have hk0 : k = 0 := Nat.le_zero.mp hk
    subst hk0
    simp [runBatchGo]
  | cons d rest ih =>
    intro k i rep outs hk hopen hparse hstop
    rcases k with _ | k2
    · have hsi : stopAt i = true := by
        have := hstop 0
        simpa using this
      simp [runBatchGo, hsi]
    · have hsi : stopAt i = false := by
        have := hstop 0
        simpa using this
      simp only [runBatchGo, hsi, Bool.false_eq_true, if_false]
      rw [singleRun_open extOf expP sel d rep
        (hopen d (by rw [List.take_succ_cons]; exact List.mem_cons_self d _))
        (hparse d (by rw [List.take_succ_cons]; exact List.mem_cons_self d _))]
      simp only []
      rw [ih k2 (i + 1) (add_file_result rep (docFileResult extOf expP sel d))
        (outs ++ docSaved extOf sel d) (by simpa using hk)
        (fun d2 hd2 => hopen d2
          (by rw [List.take_succ_cons]; exact List.mem_cons_of_mem d hd2))
        (fun d2 hd2 => hparse d2
          (by rw [List.take_succ_cons]; exact List.mem_cons_of_mem d hd2))
        (fun j => by
          have := hstop (j + 1)
          rw [show i + 1 + j = i + (j + 1) by omega]
          rw [this]
          rw [decide_eq_decide]
          omega)]
      simp [add_file_result, List.take_succ_cons, List.append_assoc]

/-- C4: if the cancellation flag is first observed set at the check before
the (k+1)-st document, the batch run reports exactly the first k documents'
FileResults (so exactly k entries), no later document is opened or
processed, and the images written for those k documents are retained. -/
theorem spec_C4 (extOf : Nat → List Char) (expP : Bool)
    (sel : Option (List Char)) (stopAt : Nat → Bool) (docs : List PdfDoc)
    (k : Nat) (hk : k ≤ docs.length)
    (hopen : ∀ d ∈ docs.take k, d.openOk = true)
    (hparse : ∀ d ∈ docs.take k,
      (parse_page_range_gui sel d.pages.length).isSome = true)
    (hstop : ∀ j, stopAt j = decide (k ≤ j)) :
    extract_batch_folder extOf expP sel stopAt docs =
      some (Report.mk true ((docs.take k).map (docFileResult extOf expP sel)) [],
        ((docs.take k).map (docSaved extOf sel)).flatten) ∧
      ((docs.take k).map (docFileResult extOf expP sel)).length = k := by
  constructor
  · unfold extract_batch_folder
    rw [runBatchGo_stop extOf expP sel stopAt docs k 0 (Report.mk true [] []) []
      hk hopen hparse (fun j => by simpa using hstop j)]
    simp
  · rw [List.length_map, List.length_take]
    omega

/-- C4 witness: cancelling after 2 of 3 documents leaves exactly their two
FileResults and their images; document 3 is never opened. -/
theorem spec_C4_witness :
    ((2 ≤ ([PdfDoc.mk ("a.pdf".data) true [[3]], PdfDoc.mk ("b.pdf".data) true [[4]],
          PdfDoc.mk ("c.pdf".data) true [[5]]] : List PdfDoc).length) ∧
        (∀ j : Nat, decide (2 ≤ j) = decide (2 ≤ j))) ∧
      (extract_batch_folder (fun _ => "png".data) false none (fun j => decide (2 ≤ j))
          [PdfDoc.mk ("a.pdf".data) true [[3]], PdfDoc.mk ("b.pdf".data) true [[4]],
            PdfDoc.mk ("c.pdf".data) true [[5]]] =
        some (Report.mk true
            (([PdfDoc.mk ("a.pdf".data) true [[3]], PdfDoc.mk ("b.pdf".data) true [[4]],
                PdfDoc.mk ("c.pdf".data) true [[5]]].take 2).map
              (docFileResult (fun _ => "png".data) false none)) [],
          (([PdfDoc.mk ("a.pdf".data) true [[3]], PdfDoc.mk ("b.pdf".data) true [[4]],
              PdfDoc.mk ("c.pdf".data) true [[5]]].take 2).map
            (docSaved (fun _ => "png".data) none)).flatten) ∧
        (([PdfDoc.mk ("a.pdf".data) true [[3]], PdfDoc.mk ("b.pdf".data) true [[4]],
            PdfDoc.mk ("c.pdf".data) true [[5]]].take 2).map
          (docFileResult (fun _ => "png".data) false none)).length = 2) :=
  ⟨⟨by decide, fun _ => rfl⟩,
    spec_C4 (fun _ => "png".data) false none (fun j => decide (2 ≤ j))
      [PdfDoc.mk ("a.pdf".data) true [[3]], PdfDoc.mk ("b.pdf".data) true [[4]],
        PdfDoc.mk ("c.pdf".data) true [[5]]] 2 (by decide)
      (by intro d hd; fin_cases hd <;> rfl)
      (by intro d hd; fin_cases hd <;> rfl)
      (fun _ => rfl)⟩

theorem runBatchGo_noStop (extOf : Nat → List Char) (expP : Bool) :
    ∀ (docs : List PdfDoc) (i : Nat) (rep : Report) (outs : List SavedImage),
      runBatchGo extOf expP none (fun _ => false) docs i rep outs =
        some (Report.mk rep.batch_mode
            (rep.files ++
              ((docs.filter (fun d => d.openOk)).map (docFileResult extOf expP none)))
            (rep.global_errors ++
              ((docs.filter (fun d => !d.openOk)).map openErrMsg)),
          outs ++
            (((docs.filter (fun d => d.openOk)).map (docSaved extOf none)).flatten)) := by
  intro docs
  induction docs with
  | nil =>
    intro i rep outs
    simp [runBatchGo]
  | cons d rest ih =>
    intro i rep outs
    simp only [runBatchGo, Bool.false_eq_true, if_false]
    rcases hok : d.openOk with _ | _
    · rw [singleRun_fail extOf expP none d rep hok]
      simp only []
      rw [ih (i + 1) (add_global_error rep (openErrMsg d)) (outs ++ [])]
      simp [add_global_error, List.filter_cons, hok]
    · rw [singleRun_open extOf expP none d rep hok (by rfl)]
      simp only []
      rw [ih (i + 1) (add_file_result rep (docFileResult extOf expP none d))
        (outs ++ docSaved extOf none d)]
      simp [add_file_result, List.filter_cons, hok, List.append_assoc]

/-- C5: a document whose open fails contributes exactly one global error
and no FileResult, and the extractor returns immediately; a batch without
cancellation reports exactly the FileResults of the documents that do open
(in order) plus one global error per failing document. -/
theorem spec_C5 (extOf : Nat → List Char) (expP : Bool)
    (sel : Option (List Char)) (d : PdfDoc) (rep : Report)
    (docs : List PdfDoc) (hok : d.openOk = false) :
    singleRun extOf expP sel d rep =
        some (Report.mk rep.batch_mode rep.files
          (rep.global_errors ++ [openErrMsg d]), []) ∧
      extract_batch_folder extOf expP none (fun _ => false) docs =
        some (Report.mk true
            ((docs.filter (fun d2 => d2.openOk)).map (docFileResult extOf expP none))
            ((docs.filter (fun d2 => !d2.openOk)).map openErrMsg),
          ((docs.filter (fun d2 => d2.openOk)).map (docSaved extOf none)).flatten) ∧
      ((docs.filter (fun d2 => !d2.openOk)).map openErrMsg).length =
        (docs.filter (fun d2 => !d2.openOk)).length := by
  refine ⟨singleRun_fail extOf expP sel d rep hok, ?_, List.length_map _ _⟩
  unfold extract_batch_folder
  rw [runBatchGo_noStop extOf expP docs 0 (Report.mk true [] []) []]
  simp

/-- C5 witness: a batch of one unopenable and one good document yields one
FileResult (for the good one) and one global error. -/
theorem spec_C5_witness :
    ((PdfDoc.mk ("bad.pdf".data) false []).openOk = false) ∧
      (singleRun (fun _ => "png".data) false none (PdfDoc.mk ("bad.pdf".data) false [])
          (Report.mk true [] []) =
        some (Report.mk true []
          ([] ++ [openErrMsg (PdfDoc.mk ("bad.pdf".data) false [])]), []) ∧
        extract_batch_folder (fun _ => "png".data) false none (fun _ => false)
            [PdfDoc.mk ("bad.pdf".data) false [], PdfDoc.mk ("a.pdf".data) true [[3]]] =
          some (Report.mk true
              (([PdfDoc.mk ("bad.pdf".data) false [], PdfDoc.mk ("a.pdf".data) true [[3]]].filter
                  (fun d2 => d2.openOk)).map
                (docFileResult (fun _ => "png".data) false none))
              (([PdfDoc.mk ("bad.pdf".data) false [], PdfDoc.mk ("a.pdf".data) true [[3]]].filter
                  (fun d2 => !d2.openOk)).map openErrMsg),
            (([PdfDoc.mk ("bad.pdf".data) false [], PdfDoc.mk ("a.pdf".data) true [[3]]].filter
                (fun d2 => d2.openOk)).map (docSaved (fun _ => "png".data) none)).flatten) ∧
        (([PdfDoc.mk ("bad.pdf".data) false [], PdfDoc.mk ("a.pdf".data) true [[3]]].filter
            (fun d2 => !d2.openOk)).map openErrMsg).length =
          ([PdfDoc.mk ("bad.pdf".data) false [], PdfDoc.mk ("a.pdf".data) true [[3]]].filter
            (fun d2 => !d2.openOk)).length) :=
  ⟨rfl,
    spec_C5 (fun _ => "png".data) false none (PdfDoc.mk ("bad.pdf".data) false [])
      (Report.mk true [] [])
      [PdfDoc.mk ("bad.pdf".data) false [], PdfDoc.mk ("a.pdf".data) true [[3]]] rfl⟩

end PdfExtract
